import Mathlib

/-!
Shallow embedding of `src/aar_doc/defaults.py` (module `aar_doc.defaults`).

The module collects role default values (`RoleDefault`, `RoleDefaultsManager`),
projects them into an ordered, comment-annotated map (`to_commented_map`),
drives extraction from an argument-spec structure
(`generate_commented_defaults`), and writes the result to disk
(`write_defaults`, modelled here as output-path resolution plus the
error-message/exit-code behaviour of its two `except OSError` handlers).

Python values taken from the YAML argument spec are modelled by the closed
variant `Val`; Python `dict` insertion-order semantics are modelled by
ordered association lists in which assignment to an existing key replaces the
entry in place and assignment to a fresh key appends at the end.
-/

namespace AarDoc

/-- A Python value drawn from the parsed argument spec: `None`, booleans,
integers, strings, or lists.  `Val.none` models the Python object `None`
(both an explicit `null` in the YAML and an absent key looked up with
`dict.get`, which return the same object). -/
inductive Val where
  | none
  | bool (b : Bool)
  | int (n : Int)
  | str (s : String)
  | list (xs : List Val)

/-- Python `value is None` identity test used by `generate_commented_defaults`. -/
def Val.isNone : Val → Bool
  | Val.none => true
  | _ => false

/-- Python `isinstance(value, str)` test used by `add_default` and
`to_commented_map`. -/
def Val.isStr : Val → Bool
  | Val.str _ => true
  | _ => false

/-- The whitespace characters stripped by Python's `str.strip()`
(ASCII fragment: space, tab, newline, carriage return, vertical tab,
form feed). -/
def pyIsSpace (c : Char) : Bool :=
  c == ' ' || c == '\t' || c == '\n' || c == '\x0d' || c == '\x0b' || c == '\x0c'

/-- `str.strip()` on the character list: drop the maximal whitespace prefix,
then the maximal whitespace suffix. -/
def pyStripList (l : List Char) : List Char :=
  (l.dropWhile pyIsSpace).rdropWhile pyIsSpace

/-- The Python substring test `"\n" in value` for the one-character pattern:
does the character list contain a newline? -/
def hasNewline : List Char → Bool
  | [] => false
  | c :: rest => c == '\n' || hasNewline rest

/-- `"\n" in value` on strings. -/
def containsNewline (s : String) : Bool :=
  hasNewline s.data

/-- Python `value.strip()` for strings. -/
def pyStrip (s : String) : String :=
  String.mk (pyStripList s.data)

/-- The normalization `add_default` applies before storing:
`if isinstance(value, str): value = value.strip()`. -/
def normValue : Val → Val
  | Val.str s => Val.str (pyStrip s)
  | v => v

/-- `class RoleDefault` — a single role default (name, value, description).
The `description` field is typed `str` in the source but receives arbitrary
spec-derived data (including `None`) from its only caller, so it is a `Val`
here. -/
structure RoleDefault where
  name : String
  value : Val
  description : Val

/-- Python dict assignment `d[name] = v` on an insertion-ordered mapping from
`name` to `RoleDefault` (the key is always the entry's `name`, so the dict is
represented as the ordered list of its values): replace in place if the key
exists, append otherwise. -/
def dictSet : List RoleDefault → RoleDefault → List RoleDefault
  | [], v => [v]
  | w :: rest, v => if w.name = v.name then v :: rest else w :: dictSet rest v

/-- Python `d.setdefault(name, v)` on the same representation: keep the
existing entry if the key exists, append otherwise. -/
def dictSetdefault : List RoleDefault → RoleDefault → List RoleDefault
  | [], v => [v]
  | w :: rest, v => if w.name = v.name then w :: rest else w :: dictSetdefault rest v

/-- Python `d.get(name)` on the same representation. -/
def dictLookup : List RoleDefault → String → Option RoleDefault
  | [], _ => Option.none
  | w :: rest, k => if w.name = k then some w else dictLookup rest k

/-- `class RoleDefaultsManager` — `_defaults` is the insertion-ordered dict of
tracked defaults, `_overwrite` the duplicate policy flag. -/
structure RoleDefaultsManager where
  _defaults : List RoleDefault := []
  _overwrite : Bool := false

/-- The `defaults` property: `list(self._defaults.values())` in insertion
order. -/
def RoleDefaultsManager.defaults (m : RoleDefaultsManager) : List RoleDefault :=
  m._defaults

/-- `RoleDefaultsManager.add_default`: strip string values, then either
overwrite (`d[name] = ...`) or keep the first entry (`d.setdefault(...)`)
according to `_overwrite`.  The description parameter defaults to
`"No description provided."` exactly as in the source signature. -/
def RoleDefaultsManager.add_default (m : RoleDefaultsManager) (name : String)
    (value : Val) (description : Val := Val.str "No description provided.") :
    RoleDefaultsManager :=
  let value := normValue value
  if m._overwrite then
    { m with _defaults := dictSet m._defaults ⟨name, value, description⟩ }
  else
    { m with _defaults := dictSetdefault m._defaults ⟨name, value, description⟩ }

/-- The scalar rendering style of a value in the projected `CommentedMap`:
`literal` models wrapping in `LiteralScalarString` (block scalar), `plain`
models leaving the value untouched. -/
inductive ScalarStyle where
  | plain
  | literal
  deriving DecidableEq

/-- One key of the projected `CommentedMap`: its value, the scalar style hint,
and the comment attached before the key by
`yaml_set_comment_before_after_key`. -/
structure CMEntry where
  key : String
  value : Val
  style : ScalarStyle
  comment : Val

/-- The per-entry body of the `to_commented_map` loop: wrap multiline strings
as literal scalars (content unchanged) and attach the description as the
comment before the key. -/
def entryOf (rd : RoleDefault) : CMEntry :=
  match rd.value with
  | Val.str s =>
      if containsNewline s then ⟨rd.name, Val.str s, ScalarStyle.literal, rd.description⟩
      else ⟨rd.name, Val.str s, ScalarStyle.plain, rd.description⟩
  | v => ⟨rd.name, v, ScalarStyle.plain, rd.description⟩

/-- `CommentedMap` assignment (`cm[key] = value` followed by the comment
attachment for that key): replace in place if the key exists, append
otherwise. -/
def cmAssign : List CMEntry → CMEntry → List CMEntry
  | [], e => [e]
  | w :: rest, e => if w.key = e.key then e :: rest else w :: cmAssign rest e

/-- One iteration of the `to_commented_map` loop. -/
def toCmStep (cm : List CMEntry) (rd : RoleDefault) : List CMEntry :=
  cmAssign cm (entryOf rd)

/-- `RoleDefaultsManager.to_commented_map`: fold the loop body over the
tracked defaults in insertion order, starting from an empty `CommentedMap`. -/
def RoleDefaultsManager.to_commented_map (m : RoleDefaultsManager) : List CMEntry :=
  m.defaults.foldl toCmStep []

/-- An option descriptor as consumed by the driver: the results of
`spec.get("default")` and `spec.get("description")` (`Val.none` when the key
is absent or explicitly null). -/
structure OptionSpec where
  default : Val := Val.none
  description : Val := Val.none

/-- An entry-point descriptor: `argument_spec_data[ep].get("options")` is
`Option.none` when the `options` key is absent, otherwise the insertion-ordered
option mapping. -/
structure EntryPoint where
  options : Option (List (String × OptionSpec)) := Option.none

/-- Python truthiness test `if not options: continue`: both a missing
`options` key (`None`) and a present-but-empty mapping are falsy. -/
def optionsFalsy : Option (List (String × OptionSpec)) → Bool
  | Option.none => true
  | some l => l.isEmpty

/-- The inner loop of `generate_commented_defaults` over one entry point's
options: skip when `default` is `None` (identity test), otherwise
`add_default(name, value, description)` with the description passed
explicitly (so `add_default`'s placeholder default argument is bypassed). -/
def processOptions (m : RoleDefaultsManager)
    (opts : List (String × OptionSpec)) : RoleDefaultsManager :=
  opts.foldl
    (fun m p =>
      if (p.2.default).isNone then m
      else m.add_default p.1 p.2.default p.2.description)
    m

/-- One iteration of the outer loop of `generate_commented_defaults`. -/
def processEntryPoint (m : RoleDefaultsManager) (p : String × EntryPoint) :
    RoleDefaultsManager :=
  if optionsFalsy p.2.options then m
  else processOptions m (p.2.options.getD [])

/-- `generate_commented_defaults(argument_spec_data, overwrite_duplicate_defaults)`:
build a fresh manager with the given overwrite policy, walk every entry
point's options, and project the result through `to_commented_map`. -/
def generate_commented_defaults (argument_spec_data : List (String × EntryPoint))
    (overwrite_duplicate_defaults : Bool) : List CMEntry :=
  (argument_spec_data.foldl processEntryPoint
    { _defaults := [], _overwrite := overwrite_duplicate_defaults }).to_commented_map

/-- A `pathlib.Path`: its components and whether it is absolute. -/
structure PyPath where
  parts : List String
  absolute : Bool

/-- `Path.name`: the final path component (empty for a bare root). -/
def PyPath.name (p : PyPath) : String :=
  (p.parts.getLast?).getD ""

/-- `Path.is_absolute()`. -/
def PyPath.isAbsolute (p : PyPath) : Bool :=
  p.absolute

/-- `parent / component` for a plain string component (always relative). -/
def pathChild (p : PyPath) (c : String) : PyPath :=
  ⟨p.parts ++ [c], p.absolute⟩

/-- `a / b` for two paths, with pathlib's rule that an absolute right operand
replaces the left one. -/
def pathJoin (a b : PyPath) : PyPath :=
  if b.absolute then b else ⟨a.parts ++ b.parts, a.absolute⟩

/-- The output-path resolution at the top of `write_defaults`: a request named
`README.md` is redirected to `<role_path>/defaults/main.yml`; an absolute
request is used as-is; a relative request is resolved under
`<role_path>/defaults/`. -/
def resolveOutputPath (output_file_path role_path : PyPath) : PyPath :=
  if output_file_path.name = "README.md" then
    pathChild (pathChild role_path "defaults") "main.yml"
  else if output_file_path.isAbsolute then
    output_file_path
  else
    pathJoin (pathChild role_path "defaults") output_file_path

/-- Rendering of a path in an f-string (`f"...'\x7boutput\x7d'..."`). -/
def pathToString (p : PyPath) : String :=
  (if p.absolute then "/" else "") ++ String.intercalate "/" p.parts

/-- The message printed when `output.parent.mkdir(...)` raises `OSError`.
The second string literal in the source lacks the `f` prefix, so the text
`\x7bexc.strerror\x7d` is emitted literally and the strerror argument is not
interpolated. -/
def mkdirErrorMessage (output : String) (strerror : String) : String :=
  "Unable to create necessary directories for '" ++ output ++
    "'. The following error occured: '\x7bexc.strerror\x7d'."

/-- The message printed when opening or writing the output file raises
`OSError`; here the f-string interpolates `exc.strerror`. -/
def writeErrorMessage (output : String) (strerror : String) : String :=
  "Unable to write the file '" ++ output ++
    "'. The following error occured: '" ++ strerror ++ "'"

/-- Outcome of `write_defaults`: success, or `typer.echo(message)` followed by
`raise typer.Exit(code)`. -/
inductive WriteOutcome where
  | success
  | failure (message : String) (exitCode : Nat)

/-- The control flow of `write_defaults` after path resolution, with the two
possible `OSError`s supplied as oracle inputs (`some strerror` means the
corresponding operation raised with that `strerror`): a mkdir failure echoes
`mkdirErrorMessage` and exits 1; otherwise a write failure echoes
`writeErrorMessage` and exits 1; otherwise the file is written. -/
def write_defaults (output_file_path role_path : PyPath)
    (mkdirError writeError : Option String) : WriteOutcome :=
  let output := resolveOutputPath output_file_path role_path
  match mkdirError with
  | some e => WriteOutcome.failure (mkdirErrorMessage (pathToString output) e) 1
  | Option.none =>
      match writeError with
      | some e => WriteOutcome.failure (writeErrorMessage (pathToString output) e) 1
      | Option.none => WriteOutcome.success

/-- A recorded `add_default` call, for stating properties over arbitrary call
sequences. -/
structure AddCall where
  name : String
  value : Val
  description : Val

/-- Replay a sequence of `add_default` calls on a manager. -/
def runCallsFrom (m : RoleDefaultsManager) (calls : List AddCall) :
    RoleDefaultsManager :=
  calls.foldl (fun m c => m.add_default c.name c.value c.description) m

/-- A freshly constructed `RoleDefaultsManager(overwrite)`. -/
def mkManager (ov : Bool) : RoleDefaultsManager :=
  { _defaults := [], _overwrite := ov }

/-- Keys of the defaults dict in insertion order. -/
def dictNames (d : List RoleDefault) : List String :=
  d.map RoleDefault.name

/-- Insertion-order accumulation of one name: already-seen names keep their
position, fresh names append. -/
def insertName (seen : List String) (n : String) : List String :=
  if n ∈ seen then seen else seen ++ [n]

/-- First-insertion order of a name sequence: each name at the position of its
first occurrence. -/
def firstInsertionOrder (names : List String) : List String :=
  names.foldl insertName []

/-- Keys of the projected `CommentedMap` in order. -/
def cmKeys (cm : List CMEntry) : List String :=
  cm.map CMEntry.key

section DictLemmas

lemma dictLookup_dictSet_self (d : List RoleDefault) (v : RoleDefault) :
    dictLookup (dictSet d v) v.name = some v := by
  induction d with
  | nil => simp [dictSet, dictLookup]
  | cons w rest ih =>
      by_cases h : w.name = v.name
      · simp [dictSet, dictLookup, h]
      · simp [dictSet, dictLookup, h, ih]

lemma dictLookup_dictSet_ne (d : List RoleDefault) (v : RoleDefault) (k : String)
    (h : k ≠ v.name) : dictLookup (dictSet d v) k = dictLookup d k := by
  induction d with
  | nil => simp [dictSet, dictLookup, Ne.symm h]
  | cons w rest ih =>
      by_cases hw : w.name = v.name
      · have hwk : w.name ≠ k := by rw [hw]; exact Ne.symm h
        simp [dictSet, dictLookup, hw, hwk, Ne.symm h]
      · simp [dictSet, dictLookup, hw, ih]

lemma dictSetdefault_of_lookup_some (d : List RoleDefault) (v : RoleDefault)
    (h : (dictLookup d v.name).isSome = true) : dictSetdefault d v = d := by
  induction d with
  | nil => simp [dictLookup] at h
  | cons w rest ih =>
      by_cases hw : w.name = v.name
      · simp [dictSetdefault, hw]
      · simp [dictLookup, hw] at h
        simp [dictSetdefault, hw, ih h]

lemma dictLookup_dictSetdefault_self_none (d : List RoleDefault) (v : RoleDefault)
    (h : dictLookup d v.name = Option.none) :
    dictLookup (dictSetdefault d v) v.name = some v := by
  induction d with
  | nil => simp [dictSetdefault, dictLookup]
  | cons w rest ih =>
      by_cases hw : w.name = v.name
      · simp [dictLookup, hw] at h
      · simp [dictLookup, hw] at h
        simp [dictSetdefault, dictLookup, hw, ih h]

lemma dictLookup_dictSetdefault_ne (d : List RoleDefault) (v : RoleDefault) (k : String)
    (h : k ≠ v.name) : dictLookup (dictSetdefault d v) k = dictLookup d k := by
  induction d with
  | nil => simp [dictSetdefault, dictLookup, Ne.symm h]
  | cons w rest ih =>
      by_cases hw : w.name = v.name
      · simp [dictSetdefault, dictLookup, hw]
      · simp [dictSetdefault, dictLookup, hw, ih]

lemma dictNames_cons (w : RoleDefault) (rest : List RoleDefault) :
    dictNames (w :: rest) = w.name :: dictNames rest := rfl

lemma dictNames_dictSet (d : List RoleDefault) (v : RoleDefault) :
    dictNames (dictSet d v) = insertName (dictNames d) v.name := by
  induction d with
  | nil => simp [dictSet, dictNames, insertName]
  | cons w rest ih =>
      by_cases hw : w.name = v.name
      · have hmem : v.name ∈ dictNames (w :: rest) := by
          rw [dictNames_cons, ← hw]; exact List.mem_cons_self _ _
        have hset : dictSet (w :: rest) v = v :: rest := by
          rw [dictSet, if_pos hw]
        rw [insertName, if_pos hmem, hset, dictNames_cons, dictNames_cons, hw]
      · have hset : dictSet (w :: rest) v = w :: dictSet rest v := by
          rw [dictSet, if_neg hw]
        rw [hset, dictNames_cons, ih]
        by_cases hm : v.name ∈ dictNames rest
        · have hmem : v.name ∈ dictNames (w :: rest) := by
            rw [dictNames_cons]; exact List.mem_cons_of_mem _ hm
          rw [insertName, if_pos hm, insertName, if_pos hmem, dictNames_cons]
        · have hmem : v.name ∉ dictNames (w :: rest) := by
            rw [dictNames_cons, List.mem_cons]
            rintro (hh | hh)
            · exact hw hh.symm
            · exact hm hh
          rw [insertName, if_neg hm, insertName, if_neg hmem, dictNames_cons,
            List.cons_append]

lemma dictNames_dictSetdefault (d : List RoleDefault) (v : RoleDefault) :
    dictNames (dictSetdefault d v) = insertName (dictNames d) v.name := by
  induction d with
  | nil => simp [dictSetdefault, dictNames, insertName]
  | cons w rest ih =>
      by_cases hw : w.name = v.name
      · have hmem : v.name ∈ dictNames (w :: rest) := by
          rw [dictNames_cons, ← hw]; exact List.mem_cons_self _ _
        have hset : dictSetdefault (w :: rest) v = w :: rest := by
          rw [dictSetdefault, if_pos hw]
        rw [insertName, if_pos hmem, hset]
      · have hset : dictSetdefault (w :: rest) v = w :: dictSetdefault rest v := by
          rw [dictSetdefault, if_neg hw]
        rw [hset, dictNames_cons, ih]
        by_cases hm : v.name ∈ dictNames rest
        · have hmem : v.name ∈ dictNames (w :: rest) := by
            rw [dictNames_cons]; exact List.mem_cons_of_mem _ hm
          rw [insertName, if_pos hm, insertName, if_pos hmem, dictNames_cons]
        · have hmem : v.name ∉ dictNames (w :: rest) := by
            rw [dictNames_cons, List.mem_cons]
            rintro (hh | hh)
            · exact hw hh.symm
            · exact hm hh
          rw [insertName, if_neg hm, insertName, if_neg hmem, dictNames_cons,
            List.cons_append]

end DictLemmas

section ManagerLemmas

lemma add_default_true (m : RoleDefaultsManager) (h : m._overwrite = true)
    (n : String) (v d : Val) :
    m.add_default n v d
      = { m with _defaults := dictSet m._defaults ⟨n, normValue v, d⟩ } := by
  simp [RoleDefaultsManager.add_default, h]

lemma add_default_false (m : RoleDefaultsManager) (h : m._overwrite = false)
    (n : String) (v d : Val) :
    m.add_default n v d
      = { m with _defaults := dictSetdefault m._defaults ⟨n, normValue v, d⟩ } := by
  simp [RoleDefaultsManager.add_default, h]

lemma add_default_overwrite_eq (m : RoleDefaultsManager) (n : String) (v d : Val) :
    (m.add_default n v d)._overwrite = m._overwrite := by
  by_cases h : m._overwrite = true
  · rw [add_default_true m h]
  · rw [add_default_false m (by simpa using h)]

lemma runCallsFrom_nil (m : RoleDefaultsManager) : runCallsFrom m [] = m := rfl

lemma runCallsFrom_cons (m : RoleDefaultsManager) (c : AddCall) (calls : List AddCall) :
    runCallsFrom m (c :: calls)
      = runCallsFrom (m.add_default c.name c.value c.description) calls := rfl

lemma runCallsFrom_overwrite (calls : List AddCall) :
    ∀ m : RoleDefaultsManager, (runCallsFrom m calls)._overwrite = m._overwrite := by
  induction calls with
  | nil => intro m; rfl
  | cons c rest ih =>
      intro m
      rw [runCallsFrom_cons, ih, add_default_overwrite_eq]

lemma dictNames_runCallsFrom (calls : List AddCall) :
    ∀ m : RoleDefaultsManager,
      dictNames (runCallsFrom m calls)._defaults
        = (calls.map AddCall.name).foldl insertName (dictNames m._defaults) := by
  induction calls with
  | nil => intro m; rfl
  | cons c rest ih =>
      intro m
      rw [runCallsFrom_cons, ih, List.map_cons, List.foldl_cons]
      congr 1
      by_cases h : m._overwrite = true
      · rw [add_default_true m h]
        exact dictNames_dictSet _ _
      · rw [add_default_false m (by simpa using h)]
        exact dictNames_dictSetdefault _ _

lemma insertName_nodup (seen : List String) (n : String) (h : seen.Nodup) :
    (insertName seen n).Nodup := by
  rw [insertName]
  split
  · exact h
  · rename_i hn
    simp [List.nodup_append, h, hn]

lemma foldl_insertName_nodup (l : List String) :
    ∀ acc : List String, acc.Nodup → (l.foldl insertName acc).Nodup := by
  induction l with
  | nil => intro acc h; exact h
  | cons x xs ih =>
      intro acc h
      rw [List.foldl_cons]
      exact ih _ (insertName_nodup acc x h)

lemma firstInsertionOrder_nodup (l : List String) : (firstInsertionOrder l).Nodup :=
  foldl_insertName_nodup l [] List.nodup_nil

lemma foldl_insertName_of_nodup (l : List String) :
    ∀ acc : List String, l.Nodup → (∀ x ∈ l, x ∉ acc) →
      l.foldl insertName acc = acc ++ l := by
  induction l with
  | nil => intro acc _ _; simp
  | cons x xs ih =>
      intro acc hnd hdisj
      rw [List.foldl_cons, insertName, if_neg (hdisj x (List.mem_cons_self _ _))]
      have h1 : ∀ y ∈ xs, y ∉ acc ++ [x] := by
        intro y hy
        simp only [List.mem_append, List.mem_singleton]
        rintro (hc | hc)
        · exact hdisj y (List.mem_cons_of_mem _ hy) hc
        · exact (List.nodup_cons.mp hnd).1 (hc ▸ hy)
      rw [ih (acc ++ [x]) (List.nodup_cons.mp hnd).2 h1, List.append_assoc,
        List.singleton_append]

lemma firstInsertionOrder_idem (l : List String) :
    firstInsertionOrder (firstInsertionOrder l) = firstInsertionOrder l := by
  have h := firstInsertionOrder_nodup l
  rw [show firstInsertionOrder (firstInsertionOrder l)
        = (firstInsertionOrder l).foldl insertName [] from rfl,
    foldl_insertName_of_nodup _ [] h (by simp), List.nil_append]

lemma dictLookup_runCallsFrom_false (calls : List AddCall) :
    ∀ m : RoleDefaultsManager, m._overwrite = false → ∀ name : String,
      dictLookup (runCallsFrom m calls)._defaults name =
        match dictLookup m._defaults name with
        | some rd => some rd
        | Option.none =>
            match calls.find? (fun c => c.name == name) with
            | some c => some ⟨name, normValue c.value, c.description⟩
            | Option.none => Option.none := by
  induction calls with
  | nil =>
      intro m _ name
      rw [runCallsFrom_nil]
      cases h : dictLookup m._defaults name <;> simp [List.find?]
  | cons c rest ih =>
      intro m hov name
      rw [runCallsFrom_cons]
      have hov' : (m.add_default c.name c.value c.description)._overwrite = false := by
        rw [add_default_overwrite_eq]; exact hov
      rw [ih _ hov' name]
      have hm : (m.add_default c.name c.value c.description)._defaults
          = dictSetdefault m._defaults ⟨c.name, normValue c.value, c.description⟩ := by
        rw [add_default_false m hov]
      rw [hm]
      by_cases hcn : c.name = name
      · subst hcn
        rw [List.find?_cons_of_pos _ (by simp)]
        cases hl : dictLookup m._defaults c.name with
        | some rd =>
            have hid : dictSetdefault m._defaults
                ⟨c.name, normValue c.value, c.description⟩ = m._defaults :=
              dictSetdefault_of_lookup_some _ _ (by simp [hl])
            rw [hid, hl]
        | none =>
            have hnew : dictLookup (dictSetdefault m._defaults
                  ⟨c.name, normValue c.value, c.description⟩) c.name
                = some ⟨c.name, normValue c.value, c.description⟩ :=
              dictLookup_dictSetdefault_self_none _ _ hl
            rw [hnew]
      · rw [List.find?_cons_of_neg _ (by simp [hcn]),
          dictLookup_dictSetdefault_ne _ _ _ (Ne.symm hcn)]

lemma dictLookup_runCallsFrom_true (calls : List AddCall) :
    ∀ m : RoleDefaultsManager, m._overwrite = true → ∀ name : String,
      dictLookup (runCallsFrom m calls)._defaults name =
        match (calls.filter (fun c => c.name == name)).getLast? with
        | some c => some ⟨name, normValue c.value, c.description⟩
        | Option.none => dictLookup m._defaults name := by
  induction calls with
  | nil =>
      intro m _ name
      rw [runCallsFrom_nil]
      rfl
  | cons c rest ih =>
      intro m hov name
      rw [runCallsFrom_cons]
      have hov' : (m.add_default c.name c.value c.description)._overwrite = true := by
        rw [add_default_overwrite_eq]; exact hov
      rw [ih _ hov' name]
      have hm : (m.add_default c.name c.value c.description)._defaults
          = dictSet m._defaults ⟨c.name, normValue c.value, c.description⟩ := by
        rw [add_default_true m hov]
      by_cases hcn : c.name = name
      · subst hcn
        rw [List.filter_cons_of_pos (by simp)]
        cases hf : rest.filter (fun x => x.name == c.name) with
        | nil =>
            have hself : dictLookup (dictSet m._defaults
                  ⟨c.name, normValue c.value, c.description⟩) c.name
                = some ⟨c.name, normValue c.value, c.description⟩ :=
              dictLookup_dictSet_self _ _
            rw [List.getLast?_singleton, hm, hself]
            rfl
        | cons y ys =>
            rw [List.getLast?_cons_cons]
            cases hz : (y :: ys).getLast? with
            | none => simp at hz
            | some z => rfl
      · rw [List.filter_cons_of_neg (by simp [hcn])]
        cases hf : rest.filter (fun x => x.name == name) with
        | nil =>
            rw [hm, dictLookup_dictSet_ne _ _ _ (Ne.symm hcn)]
        | cons y ys =>
            cases hz : (y :: ys).getLast? with
            | none => simp at hz
            | some z => rfl

end ManagerLemmas

section ProjectionLemmas

lemma entryOf_key (rd : RoleDefault) : (entryOf rd).key = rd.name := by
  cases h : rd.value <;> simp only [entryOf, h] <;> first | rfl | (split <;> rfl)

lemma entryOf_value (rd : RoleDefault) : (entryOf rd).value = rd.value := by
  cases h : rd.value <;> simp only [entryOf, h] <;> first | rfl | (split <;> rfl)

lemma entryOf_comment (rd : RoleDefault) : (entryOf rd).comment = rd.description := by
  cases h : rd.value <;> simp only [entryOf, h] <;> first | rfl | (split <;> rfl)

lemma cmKeys_cons (w : CMEntry) (rest : List CMEntry) :
    cmKeys (w :: rest) = w.key :: cmKeys rest := rfl

lemma cmKeys_cmAssign (cm : List CMEntry) (e : CMEntry) :
    cmKeys (cmAssign cm e) = insertName (cmKeys cm) e.key := by
  induction cm with
  | nil => simp [cmAssign, cmKeys, insertName]
  | cons w rest ih =>
      by_cases hw : w.key = e.key
      · have hmem : e.key ∈ cmKeys (w :: rest) := by
          rw [cmKeys_cons, ← hw]; exact List.mem_cons_self _ _
        have hset : cmAssign (w :: rest) e = e :: rest := by
          rw [cmAssign, if_pos hw]
        rw [insertName, if_pos hmem, hset, cmKeys_cons, cmKeys_cons, hw]
      · have hset : cmAssign (w :: rest) e = w :: cmAssign rest e := by
          rw [cmAssign, if_neg hw]
        rw [hset, cmKeys_cons, ih]
        by_cases hm : e.key ∈ cmKeys rest
        · have hmem : e.key ∈ cmKeys (w :: rest) := by
            rw [cmKeys_cons]; exact List.mem_cons_of_mem _ hm
          rw [insertName, if_pos hm, insertName, if_pos hmem, cmKeys_cons]
        · have hmem : e.key ∉ cmKeys (w :: rest) := by
            rw [cmKeys_cons, List.mem_cons]
            rintro (hh | hh)
            · exact hw hh.symm
            · exact hm hh
          rw [insertName, if_neg hm, insertName, if_neg hmem, cmKeys_cons,
            List.cons_append]

lemma cmKeys_foldl_toCmStep (ds : List RoleDefault) :
    ∀ cm : List CMEntry,
      cmKeys (ds.foldl toCmStep cm)
        = (ds.map RoleDefault.name).foldl insertName (cmKeys cm) := by
  induction ds with
  | nil => intro cm; rfl
  | cons rd ds ih =>
      intro cm
      rw [List.foldl_cons, List.map_cons, List.foldl_cons, ih]
      congr 1
      rw [show toCmStep cm rd = cmAssign cm (entryOf rd) from rfl,
        cmKeys_cmAssign, entryOf_key]

lemma to_commented_map_keys (m : RoleDefaultsManager) :
    cmKeys m.to_commented_map = firstInsertionOrder (dictNames m._defaults) :=
  cmKeys_foldl_toCmStep m._defaults []

lemma mem_cmAssign (cm : List CMEntry) (e' e : CMEntry) (h : e ∈ cmAssign cm e') :
    e ∈ cm ∨ e = e' := by
  induction cm with
  | nil =>
      rw [show cmAssign [] e' = [e'] from rfl, List.mem_singleton] at h
      exact Or.inr h
  | cons w rest ih =>
      by_cases hw : w.key = e'.key
      · rw [cmAssign, if_pos hw] at h
        rcases List.mem_cons.mp h with h1 | h1
        · exact Or.inr h1
        · exact Or.inl (List.mem_cons_of_mem _ h1)
      · rw [cmAssign, if_neg hw] at h
        rcases List.mem_cons.mp h with h1 | h1
        · exact Or.inl (h1 ▸ List.mem_cons_self _ _)
        · rcases ih h1 with h2 | h2
          · exact Or.inl (List.mem_cons_of_mem _ h2)
          · exact Or.inr h2

lemma mem_foldl_toCmStep (ds : List RoleDefault) :
    ∀ (cm : List CMEntry) (e : CMEntry), e ∈ ds.foldl toCmStep cm →
      e ∈ cm ∨ ∃ rd ∈ ds, e = entryOf rd := by
  induction ds with
  | nil => intro cm e h; exact Or.inl h
  | cons rd ds ih =>
      intro cm e h
      rw [List.foldl_cons] at h
      rcases ih _ e h with h1 | h1
      · rcases mem_cmAssign cm (entryOf rd) e h1 with h2 | h2
        · exact Or.inl h2
        · exact Or.inr ⟨rd, List.mem_cons_self _ _, h2⟩
      · rcases h1 with ⟨rd', hrd', he⟩
        exact Or.inr ⟨rd', List.mem_cons_of_mem _ hrd', he⟩

end ProjectionLemmas

section StripLemmas

lemma dropWhile_append_all (p : Char → Bool) (pre l : List Char)
    (h : ∀ c ∈ pre, p c = true) :
    (pre ++ l).dropWhile p = l.dropWhile p := by
  induction pre with
  | nil => rfl
  | cons a t ih =>
      rw [List.cons_append, List.dropWhile_cons_of_pos (h a (List.mem_cons_self _ _))]
      exact ih (fun c hc => h c (List.mem_cons_of_mem _ hc))

lemma dropWhile_append_of_cons (p : Char → Bool) (mid post : List Char)
    (a : Char) (t : List Char) (h : mid.dropWhile p = a :: t) :
    (mid ++ post).dropWhile p = a :: (t ++ post) := by
  induction mid with
  | nil => rw [List.dropWhile_nil] at h; simp at h
  | cons b rest ih =>
      by_cases hb : p b
      · rw [List.dropWhile_cons_of_pos hb] at h
        rw [List.cons_append, List.dropWhile_cons_of_pos hb]
        exact ih h
      · rw [List.dropWhile_cons_of_neg hb] at h
        rw [List.cons_append, List.dropWhile_cons_of_neg hb]
        injection h with h1 h2
        rw [h1, h2]

lemma rdropWhile_append_all (p : Char → Bool) (x post : List Char)
    (h : ∀ c ∈ post, p c = true) :
    (x ++ post).rdropWhile p = x.rdropWhile p := by
  unfold List.rdropWhile
  rw [List.reverse_append,
    dropWhile_append_all p post.reverse x.reverse
      (fun c hc => h c (List.mem_reverse.mp hc))]

lemma pyStripList_sandwich (pre mid post : List Char)
    (hpre : ∀ c ∈ pre, pyIsSpace c = true) (hpost : ∀ c ∈ post, pyIsSpace c = true) :
    pyStripList (pre ++ mid ++ post) = pyStripList mid := by
  unfold pyStripList
  rw [List.append_assoc, dropWhile_append_all _ pre _ hpre]
  cases h : mid.dropWhile pyIsSpace with
  | nil =>
      have hmid : ∀ c ∈ mid, pyIsSpace c = true := by
        intro c hc
        exact List.dropWhile_eq_nil_iff.mp h c hc
      rw [dropWhile_append_all _ mid _ hmid, List.dropWhile_eq_nil_iff.mpr hpost]
  | cons a t =>
      rw [dropWhile_append_of_cons _ mid post a t h]
      exact rdropWhile_append_all pyIsSpace (a :: t) post hpost

lemma pyStripList_idem (l : List Char) :
    pyStripList (pyStripList l) = pyStripList l := by
  unfold pyStripList
  have h1 : List.dropWhile pyIsSpace (l.dropWhile pyIsSpace) = l.dropWhile pyIsSpace :=
    List.dropWhile_idempotent pyIsSpace l
  have h2 : List.dropWhile pyIsSpace ((l.dropWhile pyIsSpace).rdropWhile pyIsSpace)
      = (l.dropWhile pyIsSpace).rdropWhile pyIsSpace := by
    rcases hr : (l.dropWhile pyIsSpace).rdropWhile pyIsSpace with _ | ⟨a, t⟩
    · rfl
    · have hpre := List.rdropWhile_prefix pyIsSpace (l.dropWhile pyIsSpace)
      rw [hr] at hpre
      rcases hpre with ⟨u, hu⟩
      have hm' : l.dropWhile pyIsSpace = a :: (t ++ u) := by
        rw [← hu, List.cons_append]
      have hpa : pyIsSpace a = false := by
        by_contra hcon
        have hpa' : pyIsSpace a = true := by
          revert hcon; cases pyIsSpace a <;> simp
        have h1' := h1
        rw [hm', List.dropWhile_cons_of_pos hpa'] at h1'
        have hlen := congrArg List.length h1'
        have hle : (List.dropWhile pyIsSpace (t ++ u)).length ≤ (t ++ u).length :=
          (List.dropWhile_suffix pyIsSpace).sublist.length_le
        rw [List.length_cons] at hlen
        omega
      rw [List.dropWhile_cons_of_neg (by simp [hpa])]
  rw [h2, List.rdropWhile_idempotent]

lemma pyStrip_idem (s : String) : pyStrip (pyStrip s) = pyStrip s := by
  unfold pyStrip
  rw [show (String.mk (pyStripList s.data)).data = pyStripList s.data from rfl,
    pyStripList_idem]

lemma mem_pyStripList (l : List Char) (c : Char) (h : c ∈ pyStripList l) : c ∈ l := by
  unfold pyStripList at h
  have hpre := List.rdropWhile_prefix pyIsSpace (l.dropWhile pyIsSpace)
  have h1 : c ∈ l.dropWhile pyIsSpace := hpre.sublist.subset h
  exact (List.dropWhile_suffix pyIsSpace).sublist.subset h1

lemma hasNewline_eq_true_iff (l : List Char) : hasNewline l = true ↔ '\n' ∈ l := by
  induction l with
  | nil => simp [hasNewline]
  | cons c rest ih =>
      rw [hasNewline, Bool.or_eq_true, ih, List.mem_cons, beq_iff_eq]
      constructor
      · rintro (hh | hh)
        · exact Or.inl hh.symm
        · exact Or.inr hh
      · rintro (hh | hh)
        · exact Or.inl hh.symm
        · exact Or.inr hh

lemma containsNewline_eq_false (s : String) (h : '\n' ∉ s.data) :
    containsNewline s = false := by
  have hnot : ¬ hasNewline s.data = true :=
    fun hc => h ((hasNewline_eq_true_iff s.data).mp hc)
  exact Bool.eq_false_iff.mpr hnot

end StripLemmas

section DriverLemmas

lemma dictSet_dictSet_same (d : List RoleDefault) (v w : RoleDefault)
    (h : w.name = v.name) : dictSet (dictSet d v) w = dictSet d w := by
  induction d with
  | nil =>
      have h1 : dictSet ([] : List RoleDefault) v = [v] := rfl
      have h2 : dictSet [v] w = w :: [] := by rw [dictSet, if_pos h.symm]
      rw [h1, h2]
      rfl
  | cons x rest ih =>
      by_cases hx : x.name = v.name
      · have h1 : dictSet (x :: rest) v = v :: rest := by rw [dictSet, if_pos hx]
        have h2 : dictSet (v :: rest) w = w :: rest := by rw [dictSet, if_pos h.symm]
        have h3 : dictSet (x :: rest) w = w :: rest := by
          rw [dictSet, if_pos (hx.trans h.symm)]
        rw [h1, h2, h3]
      · have hxw : ¬ x.name = w.name := by rw [h]; exact hx
        have h1 : dictSet (x :: rest) v = x :: dictSet rest v := by
          rw [dictSet, if_neg hx]
        have h2 : dictSet (x :: dictSet rest v) w = x :: dictSet (dictSet rest v) w := by
          rw [dictSet, if_neg hxw]
        have h3 : dictSet (x :: rest) w = x :: dictSet rest w := by
          rw [dictSet, if_neg hxw]
        rw [h1, h2, h3, ih]

lemma normValue_str (t : String) : normValue (Val.str t) = Val.str (pyStrip t) := rfl

lemma normValue_of_not_str (v : Val) (hv : v.isStr = false) : normValue v = v := by
  cases v <;> first | rfl | (simp [Val.isStr] at hv)

lemma generate_eq (data : List (String × EntryPoint)) (ov : Bool) :
    generate_commented_defaults data ov
      = (data.foldl processEntryPoint (mkManager ov)).to_commented_map := rfl

lemma processEntryPoint_some (m : RoleDefaultsManager) (ep : String)
    (l : List (String × OptionSpec)) :
    processEntryPoint m (ep, ⟨some l⟩) = processOptions m l := by
  cases l with
  | nil => rfl
  | cons o rest => rfl

lemma processEntryPoint_none (m : RoleDefaultsManager) (ep : String) :
    processEntryPoint m (ep, ⟨Option.none⟩) = m := rfl

lemma processOptions_append (m : RoleDefaultsManager)
    (l1 l2 : List (String × OptionSpec)) :
    processOptions m (l1 ++ l2) = processOptions (processOptions m l1) l2 := by
  unfold processOptions
  rw [List.foldl_append]

lemma processOptions_middle_null (m : RoleDefaultsManager)
    (opts1 opts2 : List (String × OptionSpec)) (nm : String) (d : Val) :
    processOptions m (opts1 ++ [(nm, ⟨Val.none, d⟩)] ++ opts2)
      = processOptions m (opts1 ++ opts2) := by
  rw [processOptions_append, processOptions_append, processOptions_append]
  rfl

lemma add_default_mkManager (ov : Bool) (nm : String) (v d : Val) :
    (mkManager ov).add_default nm v d
      = { _defaults := [⟨nm, normValue v, d⟩], _overwrite := ov } := by
  cases ov
  · rw [add_default_false (mkManager false) rfl]; rfl
  · rw [add_default_true (mkManager true) rfl]; rfl

lemma to_commented_map_single (rd : RoleDefault) (ov : Bool) :
    ({ _defaults := [rd], _overwrite := ov } : RoleDefaultsManager).to_commented_map
      = [entryOf rd] := rfl

lemma entryOf_str (nm : String) (t : String) (d : Val) :
    entryOf ⟨nm, Val.str t, d⟩
      = ⟨nm, Val.str t,
          if containsNewline t then ScalarStyle.literal else ScalarStyle.plain, d⟩ := by
  cases h : containsNewline t <;> simp [entryOf, h]

lemma entryOf_style_str (rd : RoleDefault) (s : String) (hs : rd.value = Val.str s) :
    (entryOf rd).style
      = if containsNewline s then ScalarStyle.literal else ScalarStyle.plain := by
  cases hnl : containsNewline s <;> simp [entryOf, hs, hnl]

lemma generate_single (ep nm : String) (v d : Val) (ov : Bool) (hv : v.isNone = false) :
    generate_commented_defaults [(ep, ⟨some [(nm, ⟨v, d⟩)]⟩)] ov
      = [entryOf ⟨nm, normValue v, d⟩] := by
  rw [generate_eq, List.foldl_cons, List.foldl_nil, processEntryPoint_some]
  rw [show processOptions (mkManager ov) [(nm, ⟨v, d⟩)]
        = if Val.isNone v then mkManager ov else (mkManager ov).add_default nm v d
      from rfl]
  rw [if_neg (by simp [hv]), add_default_mkManager, to_commented_map_single]

end DriverLemmas

/-- C1: with `overwrite = false`, replaying any sequence of `add_default` calls
yields a collection with at most one entry per name (the key list is
duplicate-free); for every name found by the first matching call, the stored
entry carries that first call's value (after the universal string-trim
normalization) and description; and an `add_default` on an already-known name
is a complete no-op on the manager state, raising no error (it is a total
function). -/
theorem C1_nonoverwrite_first_wins (calls : List AddCall) (name : String) :
    (dictNames (runCallsFrom (mkManager false) calls)._defaults).Nodup ∧
    (∀ c : AddCall, calls.find? (fun c => c.name == name) = some c →
      dictLookup (runCallsFrom (mkManager false) calls)._defaults name
        = some ⟨name, normValue c.value, c.description⟩) ∧
    (∀ (m : RoleDefaultsManager) (v d : Val), m._overwrite = false →
      (dictLookup m._defaults name).isSome = true →
      m.add_default name v d = m) := by
  refine ⟨?_, ?_, ?_⟩
  · rw [dictNames_runCallsFrom calls (mkManager false)]
    exact foldl_insertName_nodup _ _ List.nodup_nil
  · intro c hc
    have h := dictLookup_runCallsFrom_false calls (mkManager false) rfl name
    rw [hc] at h
    exact h
  · intro m v d hov hsome
    rw [add_default_false m hov]
    have hd := dictSetdefault_of_lookup_some m._defaults ⟨name, normValue v, d⟩ hsome
    rw [hd]

/-- Witness for C1 at a concrete call sequence: two calls on the same name
under `overwrite = false`; the first call's value and description survive. -/
theorem C1_nonoverwrite_first_wins_witness :
    dictLookup (runCallsFrom (mkManager false)
        [⟨"port", Val.int 80, Val.str "d1"⟩, ⟨"port", Val.int 443, Val.str "d2"⟩])._defaults
        "port"
      = some ⟨"port", Val.int 80, Val.str "d1"⟩ :=
  (C1_nonoverwrite_first_wins
      [⟨"port", Val.int 80, Val.str "d1"⟩, ⟨"port", Val.int 443, Val.str "d2"⟩]
      "port").2.1 ⟨"port", Val.int 80, Val.str "d1"⟩ rfl

/-- C2: with `overwrite = true`, the final entry for a name carries the value
(after trim normalization) and description of the last call with that name,
while the key order of the defaults dict — and of the projected document —
equals first-insertion order of the call names, for either overwrite
policy. -/
theorem C2_overwrite_last_value_first_position (calls : List AddCall) (name : String)
    (ov : Bool) :
    (∀ c : AddCall, (calls.filter (fun c => c.name == name)).getLast? = some c →
      dictLookup (runCallsFrom (mkManager true) calls)._defaults name
        = some ⟨name, normValue c.value, c.description⟩) ∧
    dictNames (runCallsFrom (mkManager ov) calls)._defaults
      = firstInsertionOrder (calls.map AddCall.name) ∧
    cmKeys (runCallsFrom (mkManager ov) calls).to_commented_map
      = firstInsertionOrder (calls.map AddCall.name) := by
  have hnames : dictNames (runCallsFrom (mkManager ov) calls)._defaults
      = firstInsertionOrder (calls.map AddCall.name) := by
    rw [dictNames_runCallsFrom calls (mkManager ov)]
    rfl
  refine ⟨?_, hnames, ?_⟩
  · intro c hc
    have h := dictLookup_runCallsFrom_true calls (mkManager true) rfl name
    rw [hc] at h
    exact h
  · rw [to_commented_map_keys, hnames, firstInsertionOrder_idem]

/-- Witness for C2 at a concrete call sequence: the duplicate name keeps its
first position but takes the last call's value and description. -/
theorem C2_overwrite_last_value_first_position_witness :
    dictLookup (runCallsFrom (mkManager true)
        [⟨"a", Val.int 1, Val.none⟩, ⟨"b", Val.int 5, Val.none⟩,
         ⟨"a", Val.int 2, Val.str "late"⟩])._defaults "a"
      = some ⟨"a", Val.int 2, Val.str "late"⟩ :=
  (C2_overwrite_last_value_first_position
      [⟨"a", Val.int 1, Val.none⟩, ⟨"b", Val.int 5, Val.none⟩,
       ⟨"a", Val.int 2, Val.str "late"⟩] "a" true).1
    ⟨"a", Val.int 2, Val.str "late"⟩ rfl

/-- C3: contrary to the claim, an option with a non-null default and no
`description` key does NOT receive the placeholder "No description provided.".
The driver passes `spec.get("description")` — that is, `None` — explicitly to
`add_default`, bypassing the placeholder default argument, so the collected
entry's description (and hence the attached comment) is `None`. -/
theorem C3_missing_description_stored_as_none :
    (generate_commented_defaults
        [("main", ⟨some [("foo", ⟨Val.int 1, Val.none⟩)]⟩)] false).map CMEntry.comment
      = [Val.none]
    ∧ (Val.none : Val) ≠ Val.str "No description provided." := by
  refine ⟨rfl, ?_⟩
  intro hcon
  cases hcon

/-- C4: an option descriptor whose `default` is null contributes no entry
(removing it from the middle of an options mapping leaves the result
unchanged), and an entry point with no `options` key contributes no entries
(it can be deleted from the spec without changing the result); both are
total-function behaviours, not errors. -/
theorem C4_null_default_and_missing_options_skip
    (data1 data2 : List (String × EntryPoint)) (ep : String)
    (opts1 opts2 : List (String × OptionSpec)) (nm : String) (d : Val) (ov : Bool) :
    generate_commented_defaults
        (data1 ++ [(ep, ⟨some (opts1 ++ [(nm, ⟨Val.none, d⟩)] ++ opts2)⟩)] ++ data2) ov
      = generate_commented_defaults (data1 ++ [(ep, ⟨some (opts1 ++ opts2)⟩)] ++ data2) ov
    ∧ generate_commented_defaults (data1 ++ [(ep, ⟨Option.none⟩)] ++ data2) ov
      = generate_commented_defaults (data1 ++ data2) ov := by
  constructor
  · rw [generate_eq, generate_eq,
      List.foldl_append, List.foldl_append, List.foldl_append, List.foldl_append,
      List.foldl_cons, List.foldl_cons, List.foldl_nil, List.foldl_nil,
      processEntryPoint_some, processEntryPoint_some, processOptions_middle_null]
  · rw [generate_eq, generate_eq,
      List.foldl_append, List.foldl_append,
      List.foldl_cons, List.foldl_nil,
      processEntryPoint_none, List.foldl_append]

/-- C5: every entry of the projected `CommentedMap` comes from a tracked
default with the same key, the identical (untransformed) value and the
description attached as its comment; a string value is marked literal exactly
when it contains a newline and plain exactly when it does not. -/
theorem C5_multiline_marking (m : RoleDefaultsManager) (e : CMEntry)
    (he : e ∈ m.to_commented_map) :
    ∃ rd ∈ m.defaults, e = entryOf rd ∧ e.key = rd.name ∧ e.value = rd.value ∧
      e.comment = rd.description ∧
      ∀ s : String, rd.value = Val.str s →
        ((e.style = ScalarStyle.literal ↔ containsNewline s = true) ∧
         (e.style = ScalarStyle.plain ↔ containsNewline s = false)) := by
  rcases mem_foldl_toCmStep m.defaults [] e he with h1 | h1
  · exact absurd h1 (List.not_mem_nil e)
  · rcases h1 with ⟨rd, hrd, he'⟩
    refine ⟨rd, hrd, he', ?_, ?_, ?_, ?_⟩
    · rw [he']; exact entryOf_key rd
    · rw [he']; exact entryOf_value rd
    · rw [he']; exact entryOf_comment rd
    · intro s hs
      rw [he', entryOf_style_str rd s hs]
      cases hnl : containsNewline s <;> constructor <;> simp [hnl]

/-- Witness for C5 on a concrete projection: the single collected default
projects to the expected entry. -/
theorem C5_multiline_marking_witness :
    (⟨"a", Val.int 7, ScalarStyle.plain, Val.str "d"⟩ : CMEntry)
      = entryOf ⟨"a", Val.int 7, Val.str "d"⟩ := by
  obtain ⟨rd, hrd, he, _⟩ :=
    C5_multiline_marking ((mkManager false).add_default "a" (Val.int 7) (Val.str "d"))
      ⟨"a", Val.int 7, ScalarStyle.plain, Val.str "d"⟩
      (List.mem_singleton_self _)
  have hrd' : rd = ⟨"a", Val.int 7, Val.str "d"⟩ := by
    have hdef : ((mkManager false).add_default "a" (Val.int 7) (Val.str "d")).defaults
        = [⟨"a", Val.int 7, Val.str "d"⟩] := rfl
    rw [hdef, List.mem_singleton] at hrd
    exact hrd
  rw [hrd'] at he
  exact he

/-- C6: `add_default` trims string values before storing (the stored entry
holds the stripped string); re-adding the already-trimmed string under
overwrite leaves the manager state unchanged; the trim itself is idempotent;
and non-string values are stored unchanged. -/
theorem C6_string_trim_normalization (m : RoleDefaultsManager) (name s : String)
    (d : Val) (h : m._overwrite = true) :
    dictLookup (m.add_default name (Val.str s) d)._defaults name
        = some ⟨name, Val.str (pyStrip s), d⟩ ∧
    (m.add_default name (Val.str s) d).add_default name (Val.str (pyStrip s)) d
        = m.add_default name (Val.str s) d ∧
    pyStrip (pyStrip s) = pyStrip s ∧
    ∀ v : Val, v.isStr = false →
      dictLookup (m.add_default name v d)._defaults name = some ⟨name, v, d⟩ := by
  have hov2 : (m.add_default name (Val.str s) d)._overwrite = true := by
    rw [add_default_overwrite_eq]; exact h
  refine ⟨?_, ?_, pyStrip_idem s, ?_⟩
  · rw [add_default_true m h]
    have hself : dictLookup
        (dictSet m._defaults ⟨name, Val.str (pyStrip s), d⟩) name
        = some ⟨name, Val.str (pyStrip s), d⟩ := dictLookup_dictSet_self _ _
    exact hself
  · rw [add_default_true _ hov2, add_default_true m h]
    simp only [normValue_str]
    rw [pyStrip_idem]
    exact congrArg (fun D => RoleDefaultsManager.mk D m._overwrite)
      (dictSet_dictSet_same m._defaults ⟨name, Val.str (pyStrip s), d⟩
        ⟨name, Val.str (pyStrip s), d⟩ rfl)
  · intro v hv
    rw [add_default_true m h, normValue_of_not_str v hv]
    exact dictLookup_dictSet_self m._defaults ⟨name, v, d⟩

/-- Witness for C6 at a concrete input: adding `" x "` under overwrite stores
the stripped string. -/
theorem C6_string_trim_normalization_witness :
    dictLookup ((mkManager true).add_default "a" (Val.str " x ") (Val.str "d"))._defaults
        "a"
      = some ⟨"a", Val.str (pyStrip " x "), Val.str "d"⟩ :=
  (C6_string_trim_normalization (mkManager true) "a" " x " (Val.str "d") rfl).1

/-- C7: contrary to the claim, the directory-creation failure message does
NOT carry the OS strerror: the second string literal of that `typer.echo`
call lacks the `f` prefix, so the literal text `\x7bexc.strerror\x7d` is
printed and the message is independent of the actual strerror.  The
file-write failure message does interpolate the strerror, and both failure
paths exit with status 1. -/
theorem C7_io_failure_reporting :
    write_defaults ⟨["out.yml"], false⟩ ⟨["role"], false⟩ (some "Permission denied")
        Option.none
      = WriteOutcome.failure
          ("Unable to create necessary directories for 'role/defaults/out.yml'. The following error occured: '\x7bexc.strerror\x7d'.")
          1
    ∧ (∀ s₁ s₂ : String,
        write_defaults ⟨["out.yml"], false⟩ ⟨["role"], false⟩ (some s₁) Option.none
          = write_defaults ⟨["out.yml"], false⟩ ⟨["role"], false⟩ (some s₂) Option.none)
    ∧ (∀ p q : PyPath, ∀ e : String,
        write_defaults p q Option.none (some e)
          = WriteOutcome.failure
              (writeErrorMessage (pathToString (resolveOutputPath p q)) e) 1) := by
  refine ⟨?_, ?_, ?_⟩
  · rfl
  · intro s₁ s₂; rfl
  · intro p q e; rfl

/-- C8: output-path resolution of `write_defaults`: a request named
`README.md` goes to `<role_path>/defaults/main.yml`; otherwise an absolute
request is used as-is and a relative one is resolved under
`<role_path>/defaults/`. -/
theorem C8_output_path_resolution (out role : PyPath) :
    (out.name = "README.md" →
      resolveOutputPath out role
        = ⟨role.parts ++ ["defaults", "main.yml"], role.absolute⟩) ∧
    (out.name ≠ "README.md" → out.absolute = true →
      resolveOutputPath out role = out) ∧
    (out.name ≠ "README.md" → out.absolute = false →
      resolveOutputPath out role
        = ⟨role.parts ++ ["defaults"] ++ out.parts, role.absolute⟩) := by
  refine ⟨?_, ?_, ?_⟩
  · intro h
    simp [resolveOutputPath, pathChild, h, List.append_assoc]
  · intro h habs
    simp [resolveOutputPath, PyPath.isAbsolute, h, habs]
  · intro h habs
    simp [resolveOutputPath, PyPath.isAbsolute, pathChild, pathJoin, h, habs,
      List.append_assoc]

/-- Witness for C8 at a concrete relative request. -/
theorem C8_output_path_resolution_witness :
    resolveOutputPath ⟨["sub", "my.yml"], false⟩ ⟨["role"], true⟩
      = ⟨["role"] ++ ["defaults"] ++ ["sub", "my.yml"], true⟩ :=
  (C8_output_path_resolution ⟨["sub", "my.yml"], false⟩ ⟨["role"], true⟩).2.2
    (by decide) rfl

/-- C9: trimming happens at insertion, before the projection's newline test:
if every newline of a string lies in its leading or trailing whitespace, the
stored value has no newline and the single-entry projection renders it plain;
in general the style of a stored string is literal exactly when a newline
survives the trim. -/
theorem C9_edge_newlines_render_plain (s : String) (pre mid post : List Char)
    (hdecomp : s.data = pre ++ mid ++ post)
    (hpre : ∀ c ∈ pre, pyIsSpace c = true)
    (hpost : ∀ c ∈ post, pyIsSpace c = true)
    (hmid : '\n' ∉ mid)
    (name : String) (d : Val) (ov : Bool) :
    containsNewline (pyStrip s) = false ∧
    ((mkManager ov).add_default name (Val.str s) d).to_commented_map
      = [⟨name, Val.str (pyStrip s), ScalarStyle.plain, d⟩] ∧
    ∀ t : String,
      ((mkManager ov).add_default name (Val.str t) d).to_commented_map
        = [⟨name, Val.str (pyStrip t),
            if containsNewline (pyStrip t) then ScalarStyle.literal else ScalarStyle.plain,
            d⟩] := by
  have hgen : ∀ t : String,
      ((mkManager ov).add_default name (Val.str t) d).to_commented_map
        = [⟨name, Val.str (pyStrip t),
            if containsNewline (pyStrip t) then ScalarStyle.literal else ScalarStyle.plain,
            d⟩] := by
    intro t
    rw [add_default_mkManager, to_commented_map_single, normValue_str, entryOf_str]
  have hnn : containsNewline (pyStrip s) = false := by
    apply containsNewline_eq_false
    rw [show (pyStrip s).data = pyStripList s.data from rfl, hdecomp,
      pyStripList_sandwich pre mid post hpre hpost]
    intro hc
    exact hmid (mem_pyStripList mid _ hc)
  refine ⟨hnn, ?_, hgen⟩
  rw [hgen s, hnn]
  rfl

/-- Witness for C9 at the concrete string `"x\n"`: the trailing newline is
trimmed away and the value renders plain. -/
theorem C9_edge_newlines_render_plain_witness :
    containsNewline (pyStrip "x\n") = false ∧
    ((mkManager false).add_default "k" (Val.str "x\n") Val.none).to_commented_map
      = [⟨"k", Val.str (pyStrip "x\n"), ScalarStyle.plain, Val.none⟩] := by
  have h := C9_edge_newlines_render_plain "x\n" [] ['x'] ['\n']
    (by decide) (by decide) (by decide) (by decide) "k" Val.none false
  exact ⟨h.1, h.2.1⟩

/-- C10: the null-default test is an identity test against `None`, so every
non-null (even falsy) default is collected into exactly one entry; and an
entry point whose `options` mapping is present but empty is skipped exactly
like one whose `options` key is absent. -/
theorem C10_falsy_collected_empty_options_skipped (ep nm : String) (v d : Val)
    (ov : Bool) (hv : v.isNone = false) :
    (∃ e : CMEntry,
      generate_commented_defaults [(ep, ⟨some [(nm, ⟨v, d⟩)]⟩)] ov = [e]
        ∧ e.key = nm ∧ e.value = normValue v ∧ e.comment = d) ∧
    ∀ (data1 data2 : List (String × EntryPoint)) (ep2 : String),
      generate_commented_defaults (data1 ++ [(ep2, ⟨some []⟩)] ++ data2) ov
        = generate_commented_defaults (data1 ++ [(ep2, ⟨Option.none⟩)] ++ data2) ov := by
  constructor
  · refine ⟨entryOf ⟨nm, normValue v, d⟩, generate_single ep nm v d ov hv, ?_, ?_, ?_⟩
    · exact entryOf_key _
    · exact entryOf_value _
    · exact entryOf_comment _
  · intro data1 data2 ep2
    rw [generate_eq, generate_eq,
      List.foldl_append, List.foldl_append, List.foldl_append, List.foldl_append,
      List.foldl_cons, List.foldl_cons, List.foldl_nil, List.foldl_nil,
      processEntryPoint_none, processEntryPoint_some]
    rfl

/-- Witness for C10 at the falsy non-null default `false`: the option is
collected. -/
theorem C10_falsy_collected_empty_options_skipped_witness :
    (generate_commented_defaults
        [("main", ⟨some [("flag", ⟨Val.bool false, Val.str "desc"⟩)]⟩)] false).map
        CMEntry.key
      = ["flag"] := by
  obtain ⟨e, h1, h2, h3, h4⟩ :=
    (C10_falsy_collected_empty_options_skipped "main" "flag" (Val.bool false)
      (Val.str "desc") false rfl).1
  rw [h1, List.map_cons, List.map_nil, h2]

end AarDoc
